import Mathlib

/-!
Verification of the cpp-dsa-library headers against their specification.

The repository consists of three header-only C++17 components:
* `dsa::LinkedList<T>`   — a singly linked list (include/dsa/LinkedList.hpp);
* `dsa::BinarySearchTree<T>` — an unbalanced BST (BinarySearchTree.hpp);
* `dsa::sort`            — six comparator-parameterized sorting algorithms
  (Sorting.hpp).

The embedding below translates the data model and the operations the claims
need directly from the source.  A `LinkedList` state is modelled by the list
of element values stored in its node chain, head to tail (the class invariant
ties `size_`, `head_` and `tail_` to that chain).  A `BinarySearchTree` is
modelled by the shape of its node graph (an inductive binary tree) together
with the `size_` counter, which the insert/remove helpers thread explicitly.
Exceptions are modelled by an error component: an operation that throws
returns `some err` together with the (unmodified) state at the throw point.
`size_t` arithmetic is modelled as `Nat` modulo `2 ^ 64` where underflow can
actually occur (the loop bounds of `bubbleSort`); vector accesses `arr[i]`
are modelled as `Option`-returning lookups so that an out-of-bounds access
surfaces as `none`.
-/

set_option maxHeartbeats 1000000

namespace dsa

/-! ### Sequence container: `dsa::LinkedList<T>` -/

/-- The two exception payloads thrown by `LinkedList` (`std::out_of_range`
with message "List is empty" resp. "Index out of bounds"). -/
inductive LLError where
  | emptyContainer
  | indexOutOfRange
deriving DecidableEq, Repr

namespace LinkedList

variable {α : Type}

/-- `T& front()`: throws when empty, otherwise `head_->data`. -/
def front (l : List α) : Option LLError × Option α :=
  if l.length = 0 then (some .emptyContainer, none) else (none, l.head?)

/-- `T& back()`: throws when empty, otherwise `tail_->data`. -/
def back (l : List α) : Option LLError × Option α :=
  if l.length = 0 then (some .emptyContainer, none) else (none, l.getLast?)

/-- `T& at(size_t index)`: throws when `index >= size_`, otherwise walks
`index` links from `head_`. -/
def atIndex (l : List α) (index : Nat) : Option LLError × Option α :=
  if index ≥ l.length then (some .indexOutOfRange, none) else (none, l[index]?)

/-- `void pop_front()`: throws when empty, otherwise unlinks the head node. -/
def pop_front (l : List α) : Option LLError × List α :=
  if l.length = 0 then (some .emptyContainer, l) else (none, l.tail)

/-- `void pop_back()`: throws when empty; for a single node deletes it;
otherwise walks to the second-to-last node and truncates. -/
def pop_back (l : List α) : Option LLError × List α :=
  if l.length = 0 then (some .emptyContainer, l)
  else if l.length = 1 then (none, [])
  else (none, l.dropLast)

/-- The splice performed by `insert` for `0 < index < size_`: walk
`index - 1` links, then hook a new node in after the current one. -/
def insertWalk : List α → Nat → α → List α
  | l, 0, v => v :: l
  | [], _ + 1, v => [v]
  | x :: xs, k + 1, v => x :: insertWalk xs k v

/-- `void insert(size_t index, const T& value)`: throws when
`index > size_`; `index == 0` is `push_front`, `index == size_` is
`push_back`, otherwise the walk-and-splice above. -/
def insert (l : List α) (index : Nat) (v : α) : Option LLError × List α :=
  if index > l.length then (some .indexOutOfRange, l)
  else if index = 0 then (none, v :: l)
  else if index = l.length then (none, l ++ [v])
  else (none, insertWalk l index v)

/-- The unlink performed by `erase` for `index > 0`: walk `index - 1`
links, then unlink the successor node. -/
def eraseWalk : List α → Nat → List α
  | [], _ => []
  | _ :: xs, 0 => xs
  | x :: xs, k + 1 => x :: eraseWalk xs k

/-- `void erase(size_t index)`: throws when `index >= size_`;
`index == 0` delegates to `pop_front`, otherwise walk-and-unlink. -/
def erase (l : List α) (index : Nat) : Option LLError × List α :=
  if index ≥ l.length then (some .indexOutOfRange, l)
  else if index = 0 then (none, l.tail)
  else (none, eraseWalk l index)

/-- The pointer-reversal loop of `void reverse()`: `prev` accumulates the
already reversed prefix, `curr` walks the remaining chain. -/
def reverseLoop : List α → List α → List α
  | prev, [] => prev
  | prev, c :: rest => reverseLoop (c :: prev) rest

/-- `void reverse()`: in-place reversal of the link direction. -/
def reverse (l : List α) : List α :=
  reverseLoop [] l

end LinkedList

/-! ### Ordered tree container: `dsa::BinarySearchTree<T>` -/

/-- The node graph of a `BinarySearchTree`: each node owns a value and the
left and right subtrees (`nullptr` children are `leaf`). -/
inductive Tree (α : Type) where
  | leaf : Tree α
  | node : α → Tree α → Tree α → Tree α
deriving DecidableEq, Repr

namespace BinarySearchTree

variable {α : Type} [LinearOrder α]

/-- `Node* insert(Node* node, const T& value)` together with the `size_`
counter it increments: inserts a fresh leaf where a null link is found,
descends left on `value < node->data`, right on `value > node->data`, and
leaves the tree untouched on an equal value. -/
def insert : Tree α → α → Nat → Tree α × Nat
  | .leaf, v, s => (.node v .leaf .leaf, s + 1)
  | .node x l r, v, s =>
    if v < x then
      let p := insert l v s
      (.node x p.1 r, p.2)
    else if x < v then
      let p := insert r v s
      (.node x l p.1, p.2)
    else (.node x l r, s)

/-- `Node* findMin(Node* node)`: the value of the leftmost node, starting
from a node with value `x` and left subtree `l`
(`while (node && node->left) node = node->left`). -/
def findMinVal : α → Tree α → α
  | x, .leaf => x
  | _, .node y l _ => findMinVal y l

/-- `Node* findMax(Node* node)`: the value of the rightmost node, starting
from a node with value `x` and right subtree `r`. -/
def findMaxVal : α → Tree α → α
  | x, .leaf => x
  | _, .node y _ r => findMaxVal y r

/-- `Node* remove(Node* node, const T& value)` together with the `size_`
counter (`--size_` accompanies every `delete`; the underflow of `size_t`
at `s = 0` is unreachable because a decrement only happens when a node was
found, and the claims are stated for states whose counter matches the node
count).  A found node with at most one child is spliced out; with two
children its value is replaced by the inorder successor
(`findMin(node->right)`), which is then removed from the right subtree. -/
def remove : Tree α → α → Nat → Tree α × Nat
  | .leaf, _, s => (.leaf, s)
  | .node x l r, v, s =>
    if v < x then
      let p := remove l v s
      (.node x p.1 r, p.2)
    else if x < v then
      let p := remove r v s
      (.node x l p.1, p.2)
    else
      match l, r with
      | .leaf, _ => (r, s - 1)
      | _, .leaf => (l, s - 1)
      | _, .node y rl rr =>
        let m := findMinVal y rl
        let p := remove (.node y rl rr) m s
        (.node m l p.1, p.2)

/-- `bool search(Node* node, const T& value)`: the pruned descent that
checks equality first, then goes left on `value < node->data` and right
otherwise. -/
def search : Tree α → α → Bool
  | .leaf, _ => false
  | .node x l r, v =>
    if v = x then true
    else if v < x then search l v
    else search r v

/-- `bool isValidBST(Node* node, const T* minVal, const T* maxVal)`:
propagates an open interval down the recursion; a node fails when its value
is `<=` the lower bound or `>=` the upper bound. -/
def isValidBST : Tree α → Option α → Option α → Bool
  | .leaf, _, _ => true
  | .node x l r, lo, hi =>
    if (lo.any fun m => decide (x ≤ m)) || (hi.any fun m => decide (m ≤ x)) then false
    else isValidBST l lo (some x) && isValidBST r (some x) hi

/-- `void inorder(Node* node, std::vector<T>& result)`: left, self, right. -/
def inorder : Tree α → List α
  | .leaf => []
  | .node x l r => inorder l ++ x :: inorder r

/-- `bool contains(const T& value)`. -/
def contains (t : Tree α) (v : α) : Bool :=
  search t v

/-- `std::optional<T> minimum()`: empty optional on an empty tree, else the
value of the leftmost node. -/
def minimum : Tree α → Option α
  | .leaf => none
  | .node x l _ => some (findMinVal x l)

/-- `std::optional<T> maximum()`. -/
def maximum : Tree α → Option α
  | .leaf => none
  | .node x _ r => some (findMaxVal x r)

/-- `std::vector<T> inorderTraversal()`. -/
def inorderTraversal (t : Tree α) : List α :=
  inorder t

/-- `bool isValid()`: `isValidBST(root_, nullptr, nullptr)`. -/
def isValid (t : Tree α) : Bool :=
  isValidBST t none none

/-- Number of nodes of the node graph; for every state produced by the
public API this is the value of the `size_` member. -/
def countN : Tree α → Nat
  | .leaf => 0
  | .node _ l r => countN l + countN r + 1

/-- The tree shape produced by the public `void insert(const T& value)`
(`root_ = insert(root_, value)`); the shape does not depend on `size_`. -/
def insertTree (t : Tree α) (v : α) : Tree α :=
  (insert t v 0).1

/-- The tree shape produced by the public `void remove(const T& value)`. -/
def removeTree (t : Tree α) (v : α) : Tree α :=
  (remove t v 0).1

/-- Tree shapes reachable from the empty tree by any finite sequence of
public `insert(v)`, `remove(v)` and `clear()` calls. -/
inductive Reachable : Tree α → Prop where
  | empty : Reachable .leaf
  | insert (t : Tree α) (v : α) : Reachable t → Reachable (insertTree t v)
  | remove (t : Tree α) (v : α) : Reachable t → Reachable (removeTree t v)
  | clear (t : Tree α) : Reachable t → Reachable .leaf

/-- Full container states `(root_, size_)` reachable from a
default-constructed container by the public `insert(v)`, `remove(v)` and
`clear()` calls. -/
inductive ReachableS : Tree α × Nat → Prop where
  | empty : ReachableS (Tree.leaf, 0)
  | insert (p : Tree α × Nat) (v : α) :
      ReachableS p → ReachableS (dsa.BinarySearchTree.insert p.1 v p.2)
  | remove (p : Tree α × Nat) (v : α) :
      ReachableS p → ReachableS (dsa.BinarySearchTree.remove p.1 v p.2)
  | clear (p : Tree α × Nat) : ReachableS p → ReachableS (Tree.leaf, 0)

/-- The lower-bound side of the open interval of `isValidBST`, as a
proposition: every bound present is strictly below `v`. -/
def okLo (lo : Option α) (v : α) : Prop :=
  ∀ m ∈ lo, m < v

/-- The upper-bound side: every bound present is strictly above `v`. -/
def okHi (hi : Option α) (v : α) : Prop :=
  ∀ m ∈ hi, v < m

/-- The open-interval BST invariant, stated as a proposition. -/
def BoundedP : Option α → Option α → Tree α → Prop
  | _, _, .leaf => True
  | lo, hi, .node x l r =>
    okLo lo x ∧ okHi hi x ∧ BoundedP lo (some x) l ∧ BoundedP (some x) hi r

/-- The BST property as the specification words it: at every node, all
values of the left subtree are strictly less and all values of the right
subtree strictly greater than the node's value. -/
def BSTProp : Tree α → Prop
  | .leaf => True
  | .node x l r =>
    (∀ y ∈ inorder l, y < x) ∧ (∀ y ∈ inorder r, x < y) ∧ BSTProp l ∧ BSTProp r

end BinarySearchTree

/-! ### Sorting module: `dsa::sort` -/

namespace sort

variable {α : Type}

/-- The modulus of `size_t` on the 64-bit targets the library is built
for. -/
def SIZE_T_MOD : Nat := 2 ^ 64

/-- `size_t` subtraction `a - b` (wraps around on underflow); the
arguments in this development are always `< SIZE_T_MOD`. -/
def stSub (a b : Nat) : Nat :=
  (a + SIZE_T_MOD - b) % SIZE_T_MOD

/-- The inner pass of `bubbleSort`: `for (j = 0; j < n - i - 1; ++j)`
compare `arr[j + 1]` with `arr[j]` and swap on `comp`.  `cnt` is the number
of iterations left (`(n - i - 1) - j` in `size_t` arithmetic); an index that
falls outside the vector is an out-of-bounds access and yields `none`. -/
def bubbleInner (comp : α → α → Bool) : List α → Nat → Nat → Bool → Option (List α × Bool)
  | arr, _, 0, swapped => some (arr, swapped)
  | arr, j, cnt + 1, swapped =>
    match arr[j + 1]?, arr[j]? with
    | some b, some a =>
      if comp b a then bubbleInner comp ((arr.set j b).set (j + 1) a) (j + 1) cnt true
      else bubbleInner comp arr (j + 1) cnt swapped
    | _, _ => none

/-- The outer loop of `bubbleSort`: `for (i = 0; i < n - 1; ++i)` runs a
pass over `j < n - i - 1` and stops early when a pass made no swap.
`cnt` is the number of iterations left (`(n - 1) - i` in `size_t`
arithmetic). -/
def bubbleOuter (comp : α → α → Bool) (n : Nat) : List α → Nat → Nat → Option (List α)
  | arr, _, 0 => some arr
  | arr, i, cnt + 1 =>
    match bubbleInner comp arr 0 (stSub (stSub n i) 1) false with
    | none => none
    | some (arr', true) => bubbleOuter comp n arr' (i + 1) cnt
    | some (arr', false) => some arr'

/-- `void bubbleSort(std::vector<T>& arr, Compare comp)`: `n = arr.size()`,
then the two loops above.  For `n = 0` the bound `n - 1` underflows to
`SIZE_T_MOD - 1`, so both loops are entered. -/
def bubbleSort (comp : α → α → Bool) (arr : List α) : Option (List α) :=
  bubbleOuter comp arr.length arr 0 (stSub arr.length 1)

/-- `detail::merge`: the main loop copies
`comp(arr[i], arr[j]) ? arr[i++] : arr[j++]` into `temp` while both runs
are nonempty (so on a tie, when `comp(arr[i], arr[j])` is false, the
element of the right run is taken first), then the two drain loops append
the leftovers; written over the two runs
`arr[left..mid]` and `arr[mid+1..right]` as lists. -/
def mergeRuns (comp : α → α → Bool) : List α → List α → List α
  | [], ys => ys
  | xs, [] => xs
  | x :: xs, y :: ys =>
    if comp x y then x :: mergeRuns comp xs (y :: ys)
    else y :: mergeRuns comp (x :: xs) ys
termination_by a b => a.length + b.length

/-- `detail::mergeSort(arr, left, right, comp)` acting on the segment
`arr[left..right]` as a list `l` of length `right - left + 1`:
`mid = left + (right - left) / 2` splits it after
`(l.length - 1) / 2 + 1` elements.  The first argument is recursion fuel;
the recursion depth is bounded by the segment length, so the driver below
passes `arr.size()`. -/
def mergeSortFuel (comp : α → α → Bool) : Nat → List α → List α
  | 0, l => l
  | fuel + 1, l =>
    if l.length ≤ 1 then l
    else
      mergeRuns comp
        (mergeSortFuel comp fuel (l.take ((l.length - 1) / 2 + 1)))
        (mergeSortFuel comp fuel (l.drop ((l.length - 1) / 2 + 1)))

/-- `void mergeSort(std::vector<T>& arr, Compare comp)`: recurses on the
whole vector when `arr.size() > 1`. -/
def mergeSort (comp : α → α → Bool) (arr : List α) : List α :=
  if arr.length > 1 then mergeSortFuel comp arr.length arr else arr

end sort

end dsa

/-! ## Lemmas about the ordered tree container -/

namespace dsa.BinarySearchTree

variable {α : Type} [LinearOrder α]

theorem okLo_none (v : α) : okLo (none : Option α) v := by
  simp [okLo]

theorem okHi_none (v : α) : okHi (none : Option α) v := by
  simp [okHi]

theorem okLo_some {m v : α} : okLo (some m) v ↔ m < v := by
  simp [okLo]

theorem okHi_some {m v : α} : okHi (some m) v ↔ v < m := by
  simp [okHi]

theorem boundedP_leaf (lo hi : Option α) : BoundedP lo hi (Tree.leaf : Tree α) :=
  trivial

theorem boundedP_node {lo hi : Option α} {x : α} {l r : Tree α} :
    BoundedP lo hi (Tree.node x l r) ↔
      okLo lo x ∧ okHi hi x ∧ BoundedP lo (some x) l ∧ BoundedP (some x) hi r :=
  Iff.rfl

/-- The executable validity check agrees with the propositional open-interval
invariant. -/
theorem isValidBST_eq_true_iff (t : Tree α) :
    ∀ lo hi : Option α, (isValidBST t lo hi = true ↔ BoundedP lo hi t) := by
  induction t with
  | leaf => intro lo hi; simp [isValidBST, boundedP_leaf]
  | node x l r ihl ihr =>
    intro lo hi
    rw [isValidBST, boundedP_node]
    rcases lo with _ | a <;> rcases hi with _ | b <;>
      simp [okLo_some, okHi_some, okLo_none, okHi_none, ihl, ihr, not_le, and_assoc]

/-- Every value stored in a tree satisfying the open-interval invariant lies
strictly inside the interval. -/
theorem mem_inorder_bounds {t : Tree α} :
    ∀ {lo hi : Option α}, BoundedP lo hi t → ∀ {y : α}, y ∈ inorder t →
      okLo lo y ∧ okHi hi y := by
  induction t with
  | leaf => intro lo hi _ y hy; simp [inorder] at hy
  | node x l r ihl ihr =>
    intro lo hi hb y hy
    obtain ⟨hlx, hhx, hbl, hbr⟩ := boundedP_node.mp hb
    simp only [inorder, List.mem_append, List.mem_cons] at hy
    rcases hy with hyl | rfl | hyr
    · obtain ⟨h1, h2⟩ := ihl hbl hyl
      exact ⟨h1, fun m hm => lt_trans (h2 x rfl) (hhx m hm)⟩
    · exact ⟨hlx, hhx⟩
    · obtain ⟨h1, h2⟩ := ihr hbr hyr
      exact ⟨fun m hm => lt_trans (hlx m hm) (h1 x rfl), h2⟩

/-- The value returned by the `findMin` walk is stored in the tree. -/
theorem findMinVal_mem (y : α) (l r : Tree α) :
    findMinVal y l ∈ inorder (Tree.node y l r) := by
  induction l generalizing y r with
  | leaf => simp [findMinVal, inorder]
  | node z zl zr ihzl ihzr =>
    rw [findMinVal]
    simp only [inorder, List.mem_append]
    exact Or.inl (by simpa [inorder] using ihzl z zr)

/-- The value returned by the `findMax` walk is stored in the tree. -/
theorem findMaxVal_mem (y : α) (l r : Tree α) :
    findMaxVal y r ∈ inorder (Tree.node y l r) := by
  induction r generalizing y l with
  | leaf => simp [findMaxVal, inorder]
  | node z rl rr ihrl ihrr =>
    rw [findMaxVal]
    simp only [inorder, List.mem_append, List.mem_cons]
    have := ihrr z rl
    simp only [inorder, List.mem_append, List.mem_cons] at this
    tauto

/-- In a tree satisfying the invariant, the pruned `search` finds the value
of the leftmost node. -/
theorem search_findMinVal {l : Tree α} :
    ∀ {y : α} {r : Tree α} {lo hi : Option α}, BoundedP lo hi (Tree.node y l r) →
      search (Tree.node y l r) (findMinVal y l) = true := by
  induction l with
  | leaf => intro y r lo hi _; simp [findMinVal, search]
  | node z zl zr ihzl ihzr =>
    intro y r lo hi hb
    obtain ⟨hly, hhy, hbl, hbr⟩ := boundedP_node.mp hb
    have hmem : findMinVal z zl ∈ inorder (Tree.node z zl zr) := findMinVal_mem z zl zr
    have hmy : findMinVal z zl < y := okHi_some.mp (mem_inorder_bounds hbl hmem).2
    rw [findMinVal, search, if_neg (ne_of_lt hmy), if_pos hmy]
    exact ihzl hbl

/-- `insert` preserves the open-interval invariant for any value inside the
interval. -/
theorem boundedP_insert (t : Tree α) (v : α) :
    ∀ (lo hi : Option α) (s : Nat), BoundedP lo hi t → okLo lo v → okHi hi v →
      BoundedP lo hi (insert t v s).1 := by
  induction t with
  | leaf =>
    intro lo hi s _ hlo hhi
    exact ⟨hlo, hhi, trivial, trivial⟩
  | node x l r ihl ihr =>
    intro lo hi s hb hlo hhi
    obtain ⟨hlx, hhx, hbl, hbr⟩ := boundedP_node.mp hb
    rcases lt_trichotomy v x with h1 | h1 | h1
    · simp only [insert, if_pos h1]
      exact ⟨hlx, hhx, ihl lo (some x) s hbl hlo (okHi_some.mpr h1), hbr⟩
    · subst h1
      simp only [insert, lt_self_iff_false, if_false]
      exact hb
    · simp only [insert, if_neg (lt_asymm h1), if_pos h1]
      exact ⟨hlx, hhx, hbl, ihr (some x) hi s hbr (okLo_some.mpr h1) hhi⟩

/-- Weakening the lower bound of the invariant. -/
theorem boundedP_relax_lo (t : Tree α) {a : α} {lo : Option α}
    (h : ∀ b ∈ lo, b ≤ a) :
    ∀ hi : Option α, BoundedP (some a) hi t → BoundedP lo hi t := by
  induction t with
  | leaf => intro hi _; trivial
  | node x l r ihl ihr =>
    intro hi hb
    obtain ⟨hlx, hhx, hbl, hbr⟩ := boundedP_node.mp hb
    exact ⟨fun b hb' => lt_of_le_of_lt (h b hb') (hlx a rfl), hhx, ihl (some x) hbl, hbr⟩

/-- Weakening the upper bound of the invariant. -/
theorem boundedP_relax_hi (t : Tree α) {a : α} {hi : Option α}
    (h : ∀ b ∈ hi, a ≤ b) :
    ∀ lo : Option α, BoundedP lo (some a) t → BoundedP lo hi t := by
  induction t with
  | leaf => intro lo _; trivial
  | node x l r ihl ihr =>
    intro lo hb
    obtain ⟨hlx, hhx, hbl, hbr⟩ := boundedP_node.mp hb
    exact ⟨hlx, fun b hb' => lt_of_lt_of_le (hhx a rfl) (h b hb'), hbl, ihr (some x) hbr⟩

/-- Removing the minimum of a tree satisfying the invariant yields a tree all
of whose values are strictly above that minimum. -/
theorem boundedP_remove_min (l : Tree α) :
    ∀ (y : α) (r : Tree α) (lo hi : Option α) (s : Nat),
      BoundedP lo hi (Tree.node y l r) →
      BoundedP (some (findMinVal y l)) hi
        (remove (Tree.node y l r) (findMinVal y l) s).1 := by
  induction l with
  | leaf =>
    intro y r lo hi s hb
    obtain ⟨hly, hhy, hbl, hbr⟩ := boundedP_node.mp hb
    rw [findMinVal, remove.eq_def]
    simp only [lt_self_iff_false, if_false]
    exact hbr
  | node z zl zr ihzl ihzr =>
    intro y r lo hi s hb
    obtain ⟨hly, hhy, hbl, hbr⟩ := boundedP_node.mp hb
    have hmem : findMinVal z zl ∈ inorder (Tree.node z zl zr) := findMinVal_mem z zl zr
    have hmy : findMinVal z zl < y := okHi_some.mp (mem_inorder_bounds hbl hmem).2
    rw [findMinVal, remove.eq_def]
    simp only [if_pos hmy]
    exact ⟨okLo_some.mpr hmy, hhy, ihzl z zr lo (some y) s hbl, hbr⟩

/-- `remove` preserves the open-interval invariant. -/
theorem boundedP_remove (t : Tree α) (v : α) :
    ∀ (lo hi : Option α) (s : Nat), BoundedP lo hi t →
      BoundedP lo hi (remove t v s).1 := by
  induction t with
  | leaf => intro lo hi s _; simp only [remove]; trivial
  | node x l r ihl ihr =>
    intro lo hi s hb
    obtain ⟨hlx, hhx, hbl, hbr⟩ := boundedP_node.mp hb
    rcases lt_trichotomy v x with h1 | h1 | h1
    · rw [remove.eq_def]
      simp only [if_pos h1]
      exact ⟨hlx, hhx, ihl lo (some x) s hbl, hbr⟩
    · subst h1
      rw [remove.eq_def]
      simp only [lt_self_iff_false, if_false]
      rcases l with _ | ⟨z, zl, zr⟩
      · rcases r with _ | ⟨y, rl, rr⟩
        · trivial
        · exact boundedP_relax_lo _ (fun b hb' => le_of_lt (hlx b hb')) hi hbr
      · rcases r with _ | ⟨y, rl, rr⟩
        · exact boundedP_relax_hi _ (fun b hb' => le_of_lt (hhx b hb')) lo hbl
        · have hmem : findMinVal y rl ∈ inorder (Tree.node y rl rr) := findMinVal_mem y rl rr
          obtain ⟨hvm, hhm⟩ := mem_inorder_bounds hbr hmem
          have hvm' : v < findMinVal y rl := okLo_some.mp hvm
          refine ⟨fun b hb' => lt_trans (hlx b hb') hvm', hhm, ?_, ?_⟩
          · exact boundedP_relax_hi _
              (fun b hb' => by
                obtain rfl := Option.mem_some_iff.mp hb'
                exact le_of_lt hvm') lo hbl
          · exact boundedP_remove_min rl y rr (some v) hi s hbr
    · rw [remove.eq_def]
      simp only [if_neg (lt_asymm h1), if_pos h1]
      exact ⟨hlx, hhx, hbl, ihr (some x) hi s hbr⟩

/-- The inorder sequence of a tree satisfying the invariant is strictly
increasing. -/
theorem pairwise_inorder (t : Tree α) :
    ∀ (lo hi : Option α), BoundedP lo hi t → (inorder t).Pairwise (· < ·) := by
  induction t with
  | leaf => intro _ _ _; simp [inorder]
  | node x l r ihl ihr =>
    intro lo hi hb
    obtain ⟨hlx, hhx, hbl, hbr⟩ := boundedP_node.mp hb
    rw [inorder]
    refine List.pairwise_append.mpr ⟨ihl lo (some x) hbl, ?_, ?_⟩
    · refine List.pairwise_cons.mpr ⟨?_, ihr (some x) hi hbr⟩
      exact fun y hy => okLo_some.mp (mem_inorder_bounds hbr hy).1
    · intro a ha b hb'
      have hax : a < x := okHi_some.mp (mem_inorder_bounds hbl ha).2
      rcases List.mem_cons.mp hb' with rfl | hbr'
      · exact hax
      · exact lt_trans hax (okLo_some.mp (mem_inorder_bounds hbr hbr').1)

/-- On a tree satisfying the invariant, the pruned `search` succeeds exactly
on the stored values. -/
theorem search_eq_true_iff (t : Tree α) (v : α) :
    ∀ (lo hi : Option α), BoundedP lo hi t →
      (search t v = true ↔ v ∈ inorder t) := by
  induction t with
  | leaf => intro _ _ _; simp [search, inorder]
  | node x l r ihl ihr =>
    intro lo hi hb
    obtain ⟨hlx, hhx, hbl, hbr⟩ := boundedP_node.mp hb
    by_cases hvx : v = x
    · subst hvx; simp [search, inorder]
    · by_cases hlt : v < x
      · rw [search, if_neg hvx, if_pos hlt, ihl lo (some x) hbl]
        simp only [inorder, List.mem_append, List.mem_cons]
        constructor
        · exact fun h => Or.inl h
        · rintro (h | rfl | h)
          · exact h
          · exact absurd rfl hvx
          · exact absurd hlt (lt_asymm (okLo_some.mp (mem_inorder_bounds hbr h).1))
      · have hgt : x < v := lt_of_le_of_ne (not_lt.mp hlt) (Ne.symm hvx)
        rw [search, if_neg hvx, if_neg hlt, ihr (some x) hi hbr]
        simp only [inorder, List.mem_append, List.mem_cons]
        constructor
        · exact fun h => Or.inr (Or.inr h)
        · rintro (h | rfl | h)
          · exact absurd (okHi_some.mp (mem_inorder_bounds hbl h).2) (lt_asymm hgt)
          · exact absurd rfl hvx
          · exact h

/-- Inserting a value that `search` already finds is a no-op on the tree and
on the counter. -/
theorem insert_found (t : Tree α) (v : α) :
    ∀ s : Nat, search t v = true → insert t v s = (t, s) := by
  induction t with
  | leaf => intro s hf; simp [search] at hf
  | node x l r ihl ihr =>
    intro s hf
    rw [search] at hf
    by_cases hvx : v = x
    · subst hvx
      simp [insert, lt_irrefl]
    · rw [if_neg hvx] at hf
      by_cases hlt : v < x
      · rw [if_pos hlt] at hf
        simp only [insert, if_pos hlt, ihl s hf]
      · rw [if_neg hlt] at hf
        have hgt : x < v := lt_of_le_of_ne (not_lt.mp hlt) (Ne.symm hvx)
        simp only [insert, if_neg hlt, if_pos hgt, ihr s hf]

/-- Inserting a value that `search` does not find increments the counter by
exactly one. -/
theorem insert_not_found_snd (t : Tree α) (v : α) :
    ∀ s : Nat, search t v = false → (insert t v s).2 = s + 1 := by
  induction t with
  | leaf => intro s _; simp [insert]
  | node x l r ihl ihr =>
    intro s hf
    rw [search] at hf
    by_cases hvx : v = x
    · rw [if_pos hvx] at hf; simp at hf
    · rw [if_neg hvx] at hf
      by_cases hlt : v < x
      · rw [if_pos hlt] at hf
        simp only [insert, if_pos hlt]
        exact ihl s hf
      · rw [if_neg hlt] at hf
        have hgt : x < v := lt_of_le_of_ne (not_lt.mp hlt) (Ne.symm hvx)
        simp only [insert, if_neg hlt, if_pos hgt]
        exact ihr s hf

/-- Removing a value that `search` does not find is a no-op on the tree and
on the counter. -/
theorem remove_not_found (t : Tree α) (v : α) :
    ∀ s : Nat, search t v = false → remove t v s = (t, s) := by
  induction t with
  | leaf => intro s _; simp [remove]
  | node x l r ihl ihr =>
    intro s hf
    rw [search] at hf
    by_cases hvx : v = x
    · rw [if_pos hvx] at hf; simp at hf
    · rw [if_neg hvx] at hf
      by_cases hlt : v < x
      · rw [if_pos hlt] at hf
        rw [remove.eq_def]
        simp only [if_pos hlt, ihl s hf]
      · rw [if_neg hlt] at hf
        have hgt : x < v := lt_of_le_of_ne (not_lt.mp hlt) (Ne.symm hvx)
        rw [remove.eq_def]
        simp only [if_neg hlt, if_pos hgt, ihr s hf]

/-- Removing a value that `search` finds, on a tree satisfying the
invariant, decrements the counter by exactly one delete. -/
theorem remove_found_snd (t : Tree α) :
    ∀ (v : α) (lo hi : Option α) (s : Nat), BoundedP lo hi t →
      search t v = true → (remove t v s).2 = s - 1 := by
  induction t with
  | leaf => intro v lo hi s _ hf; simp [search] at hf
  | node x l r ihl ihr =>
    intro v lo hi s hb hf
    obtain ⟨hlx, hhx, hbl, hbr⟩ := boundedP_node.mp hb
    rw [search] at hf
    by_cases hvx : v = x
    · subst hvx
      rw [remove.eq_def]
      simp only [lt_self_iff_false, if_false]
      rcases l with _ | ⟨z, zl, zr⟩
      · rcases r with _ | ⟨y, rl, rr⟩ <;> rfl
      · rcases r with _ | ⟨y, rl, rr⟩
        · rfl
        · exact ihr (findMinVal y rl) (some v) hi s hbr (search_findMinVal hbr)
    · rw [if_neg hvx] at hf
      by_cases hlt : v < x
      · rw [if_pos hlt] at hf
        rw [remove.eq_def]
        simp only [if_pos hlt]
        exact ihl v lo (some x) s hbl hf
      · rw [if_neg hlt] at hf
        have hgt : x < v := lt_of_le_of_ne (not_lt.mp hlt) (Ne.symm hvx)
        rw [remove.eq_def]
        simp only [if_neg hlt, if_pos hgt]
        exact ihr v (some x) hi s hbr hf

theorem head?_append_cons (u : List α) (z : α) (v w : List α) :
    (u ++ z :: v).head? = (u ++ z :: w).head? := by
  cases u <;> simp

/-- The head of the inorder sequence is the value of the leftmost node. -/
theorem inorder_head? (y : α) (l r : Tree α) :
    (inorder (Tree.node y l r)).head? = some (findMinVal y l) := by
  induction l generalizing y r with
  | leaf => simp [inorder, findMinVal]
  | node z zl zr ihzl ihzr =>
    rw [findMinVal]
    have h1 : (inorder (Tree.node y (Tree.node z zl zr) r)).head?
        = (inorder (Tree.node z zl zr)).head? := by
      show ((inorder zl ++ z :: inorder zr) ++ y :: inorder r).head?
          = (inorder zl ++ z :: inorder zr).head?
      rw [List.append_assoc, List.cons_append]
      exact head?_append_cons _ z _ _
    rw [h1, ihzl z zr]

/-- The last element of the inorder sequence is the value of the rightmost
node. -/
theorem inorder_getLast? (y : α) (l r : Tree α) :
    (inorder (Tree.node y l r)).getLast? = some (findMaxVal y r) := by
  induction r generalizing y l with
  | leaf =>
    show (inorder l ++ y :: ([] : List α)).getLast? = some y
    rw [List.getLast?_append_cons]
    rfl
  | node z rl rr ihrl ihrr =>
    rw [findMaxVal]
    have h1 : (inorder (Tree.node y l (Tree.node z rl rr))).getLast?
        = (z :: inorder rr).getLast? := by
      show (inorder l ++ y :: (inorder rl ++ z :: inorder rr)).getLast? = _
      rw [List.getLast?_append_cons, ← List.cons_append, List.getLast?_append_cons]
    have h2 : (inorder (Tree.node z rl rr)).getLast? = (z :: inorder rr).getLast? :=
      List.getLast?_append_cons _ _ _
    rw [h1, ← h2, ihrr z rl]

/-- In a strictly increasing list, the head is a lower bound. -/
theorem head_le_of_pairwise {l : List α} (hp : l.Pairwise (· < ·)) {m : α}
    (hm : l.head? = some m) : ∀ x ∈ l, m ≤ x := by
  cases l with
  | nil => simp at hm
  | cons a as =>
    obtain rfl : a = m := by simpa using hm
    intro x hx
    rcases List.mem_cons.mp hx with rfl | hx
    · exact le_refl x
    · exact le_of_lt ((List.pairwise_cons.mp hp).1 x hx)

/-- In a strictly increasing list, the last element is an upper bound. -/
theorem le_getLast_of_pairwise {l : List α} (hp : l.Pairwise (· < ·)) {m : α}
    (hm : l.getLast? = some m) : ∀ x ∈ l, x ≤ m := by
  induction l with
  | nil => simp at hm
  | cons a as ih =>
    cases as with
    | nil =>
      obtain rfl : a = m := by simpa using hm
      intro x hx
      rcases List.mem_cons.mp hx with rfl | hx
      · exact le_refl x
      · simp at hx
    | cons b bs =>
      rw [List.getLast?_cons_cons] at hm
      intro x hx
      rcases List.mem_cons.mp hx with rfl | hx
      · have hmm : m ∈ (b :: bs) := by
          obtain ⟨hne, heq⟩ := List.mem_getLast?_eq_getLast (x := m) hm
          exact heq ▸ List.getLast_mem hne
        exact le_of_lt ((List.pairwise_cons.mp hp).1 m hmm)
      · exact ih (List.pairwise_cons.mp hp).2 hm x hx

/-- Every tree shape reachable through the public API satisfies the
open-interval invariant with no bounds. -/
theorem reachable_boundedP {t : Tree α} (h : Reachable t) :
    BoundedP (none : Option α) none t := by
  induction h with
  | empty => trivial
  | insert t v _ ih => exact boundedP_insert t v none none 0 ih (okLo_none v) (okHi_none v)
  | remove t v _ ih => exact boundedP_remove t v none none 0 ih
  | clear t _ _ => trivial

/-- Inserting a value that `search` does not find adds exactly one node. -/
theorem insert_not_found_countN (t : Tree α) (v : α) :
    ∀ s : Nat, search t v = false → countN (insert t v s).1 = countN t + 1 := by
  induction t with
  | leaf => intro s _; simp [insert, countN]
  | node x l r ihl ihr =>
    intro s hf
    rw [search] at hf
    by_cases hvx : v = x
    · rw [if_pos hvx] at hf; simp at hf
    · rw [if_neg hvx] at hf
      by_cases hlt : v < x
      · rw [if_pos hlt] at hf
        simp only [insert, if_pos hlt, countN, ihl s hf]
        omega
      · rw [if_neg hlt] at hf
        have hgt : x < v := lt_of_le_of_ne (not_lt.mp hlt) (Ne.symm hvx)
        simp only [insert, if_neg hlt, if_pos hgt, countN, ihr s hf]
        omega

/-- Removing a value that `search` finds, on a tree satisfying the
invariant, deletes exactly one node. -/
theorem remove_found_countN (t : Tree α) :
    ∀ (v : α) (lo hi : Option α) (s : Nat), BoundedP lo hi t →
      search t v = true → countN (remove t v s).1 + 1 = countN t := by
  induction t with
  | leaf => intro v lo hi s _ hf; simp [search] at hf
  | node x l r ihl ihr =>
    intro v lo hi s hb hf
    obtain ⟨hlx, hhx, hbl, hbr⟩ := boundedP_node.mp hb
    rw [search] at hf
    by_cases hvx : v = x
    · subst hvx
      rw [remove.eq_def]
      simp only [lt_self_iff_false, if_false]
      rcases l with _ | ⟨z, zl, zr⟩
      · rcases r with _ | ⟨y, rl, rr⟩ <;> simp [countN]
      · rcases r with _ | ⟨y, rl, rr⟩
        · simp [countN]
        · have h1 := ihr (findMinVal y rl) (some v) hi s hbr (search_findMinVal hbr)
          show countN (Tree.node (findMinVal y rl) (Tree.node z zl zr)
            (remove (Tree.node y rl rr) (findMinVal y rl) s).1) + 1 = _
          simp only [countN] at h1 ⊢
          omega
    · rw [if_neg hvx] at hf
      by_cases hlt : v < x
      · rw [if_pos hlt] at hf
        rw [remove.eq_def]
        simp only [if_pos hlt, countN]
        have h1 := ihl v lo (some x) s hbl hf
        omega
      · rw [if_neg hlt] at hf
        have hgt : x < v := lt_of_le_of_ne (not_lt.mp hlt) (Ne.symm hvx)
        rw [remove.eq_def]
        simp only [if_neg hlt, if_pos hgt, countN]
        have h1 := ihr v (some x) hi s hbr hf
        omega

/-- Every reachable full state satisfies the open-interval invariant, and
its `size_` counter equals the number of nodes. -/
theorem reachableS_wf {p : Tree α × Nat} (h : ReachableS p) :
    BoundedP (none : Option α) none p.1 ∧ p.2 = countN p.1 := by
  induction h with
  | empty => exact ⟨trivial, rfl⟩
  | insert p v _ ih =>
    obtain ⟨hb, hs⟩ := ih
    refine ⟨boundedP_insert p.1 v none none p.2 hb (okLo_none v) (okHi_none v), ?_⟩
    by_cases hf : search p.1 v = true
    · rw [insert_found p.1 v p.2 hf]
      exact hs
    · have hf' : search p.1 v = false := by simpa using hf
      rw [insert_not_found_snd p.1 v p.2 hf', insert_not_found_countN p.1 v p.2 hf', hs]
  | remove p v _ ih =>
    obtain ⟨hb, hs⟩ := ih
    refine ⟨boundedP_remove p.1 v none none p.2 hb, ?_⟩
    by_cases hf : search p.1 v = true
    · rw [remove_found_snd p.1 v none none p.2 hb hf]
      have h1 := remove_found_countN p.1 v none none p.2 hb hf
      omega
    · have hf' : search p.1 v = false := by simpa using hf
      rw [remove_not_found p.1 v p.2 hf']
      exact hs
  | clear p _ _ => exact ⟨trivial, rfl⟩

/-- The open-interval invariant implies the specification's BST property. -/
theorem bstProp_of_boundedP (t : Tree α) :
    ∀ (lo hi : Option α), BoundedP lo hi t → BSTProp t := by
  induction t with
  | leaf => intro _ _ _; trivial
  | node x l r ihl ihr =>
    intro lo hi hb
    obtain ⟨hlx, hhx, hbl, hbr⟩ := boundedP_node.mp hb
    refine ⟨?_, ?_, ihl lo (some x) hbl, ihr (some x) hi hbr⟩
    · exact fun y hy => okHi_some.mp (mem_inorder_bounds hbl hy).2
    · exact fun y hy => okLo_some.mp (mem_inorder_bounds hbr hy).1

end dsa.BinarySearchTree

/-! ## Lemmas about the sequence container -/

namespace dsa.LinkedList

variable {α : Type}

theorem reverseLoop_eq (l prev : List α) : reverseLoop prev l = l.reverse ++ prev := by
  induction l generalizing prev with
  | nil => simp [reverseLoop]
  | cons c rest ih => simp [reverseLoop, ih]

theorem reverse_eq (l : List α) : reverse l = l.reverse := by
  simp [reverse, reverseLoop_eq]

end dsa.LinkedList

/-! ## Claims about the sequence container -/

/-- Claim C5: every sequence-container operation fails exactly when its
precondition is violated — `front`, `back`, `pop_front` and `pop_back`
raise the empty-container error iff the size is 0, `insert` raises the
index error iff `index > size`, and `at`/`erase` raise it iff
`index >= size`; otherwise the call raises nothing. -/
theorem linkedList_raises_iff_precondition_violated {α : Type} (l : List α) (i : Nat) (v : α) :
    (dsa.LinkedList.front l).1
        = (if l.length = 0 then some dsa.LLError.emptyContainer else none) ∧
    (dsa.LinkedList.back l).1
        = (if l.length = 0 then some dsa.LLError.emptyContainer else none) ∧
    (dsa.LinkedList.pop_front l).1
        = (if l.length = 0 then some dsa.LLError.emptyContainer else none) ∧
    (dsa.LinkedList.pop_back l).1
        = (if l.length = 0 then some dsa.LLError.emptyContainer else none) ∧
    (dsa.LinkedList.insert l i v).1
        = (if l.length < i then some dsa.LLError.indexOutOfRange else none) ∧
    (dsa.LinkedList.atIndex l i).1
        = (if l.length ≤ i then some dsa.LLError.indexOutOfRange else none) ∧
    (dsa.LinkedList.erase l i).1
        = (if l.length ≤ i then some dsa.LLError.indexOutOfRange else none) := by
  refine ⟨?_, ?_, ?_, ?_, ?_, ?_, ?_⟩ <;>
    simp only [dsa.LinkedList.front, dsa.LinkedList.back, dsa.LinkedList.pop_front,
      dsa.LinkedList.pop_back, dsa.LinkedList.insert, dsa.LinkedList.atIndex,
      dsa.LinkedList.erase, ge_iff_le, gt_iff_lt] <;>
    repeat' (first | rfl | split)

/-- Claim C6: whenever `pop_front`, `pop_back`, `insert` or `erase` raises
an error, the element sequence it returns is exactly the input sequence —
no partial mutation is observable. -/
theorem linkedList_mutators_atomic {α : Type} (l : List α) (i : Nat) (v : α) :
    ((dsa.LinkedList.pop_front l).1.isSome = true → (dsa.LinkedList.pop_front l).2 = l) ∧
    ((dsa.LinkedList.pop_back l).1.isSome = true → (dsa.LinkedList.pop_back l).2 = l) ∧
    ((dsa.LinkedList.insert l i v).1.isSome = true → (dsa.LinkedList.insert l i v).2 = l) ∧
    ((dsa.LinkedList.erase l i).1.isSome = true → (dsa.LinkedList.erase l i).2 = l) := by
  refine ⟨?_, ?_, ?_, ?_⟩ <;>
    simp only [dsa.LinkedList.pop_front, dsa.LinkedList.pop_back, dsa.LinkedList.insert,
      dsa.LinkedList.erase] <;>
    repeat' (first | rfl | simp | split)

/-- Witness for claim C6: on the empty list, `pop_front`, `pop_back`,
`insert 1` and `erase 0` all raise, and each leaves the list empty. -/
theorem linkedList_mutators_atomic_witness :
    (dsa.LinkedList.pop_front ([] : List Int)).2 = [] ∧
    (dsa.LinkedList.pop_back ([] : List Int)).2 = [] ∧
    (dsa.LinkedList.insert ([] : List Int) 1 7).2 = [] ∧
    (dsa.LinkedList.erase ([] : List Int) 0).2 = [] := by
  have h := linkedList_mutators_atomic ([] : List Int) 1 7
  have h0 := linkedList_mutators_atomic ([] : List Int) 0 7
  exact ⟨h.1 (by decide), h.2.1 (by decide), h.2.2.1 (by decide), h0.2.2.2 (by decide)⟩

/-- Claim C8: `reverse` twice restores the original order and the original
front and back elements; a single `reverse` keeps the length and the
multiset of elements and reverses the order. -/
theorem linkedList_reverse_involutive {α : Type} (l : List α) :
    dsa.LinkedList.reverse (dsa.LinkedList.reverse l) = l ∧
    (dsa.LinkedList.reverse (dsa.LinkedList.reverse l)).head? = l.head? ∧
    (dsa.LinkedList.reverse (dsa.LinkedList.reverse l)).getLast? = l.getLast? ∧
    (dsa.LinkedList.reverse l).length = l.length ∧
    (dsa.LinkedList.reverse l).Perm l ∧
    dsa.LinkedList.reverse l = l.reverse := by
  simp [dsa.LinkedList.reverse_eq, List.reverse_perm]

/-! ## Claims about the sorting module -/

/-- Claim C1 (refuted by the code): `bubbleSort` on the empty vector is an
out-of-bounds access, not a successful sort.  With `n = 0` the `size_t`
bound `n - 1` underflows to `2 ^ 64 - 1`, both loops are entered, and the
first comparison reads `arr[1]` and `arr[0]` of an empty vector; the
embedding surfaces this undefined behavior as `none` for every
comparator. -/
theorem bubbleSort_empty_vector_out_of_bounds :
    ∀ comp : Int → Int → Bool, dsa.sort.bubbleSort comp ([] : List Int) = none :=
  fun _ => rfl

/-- Claim C3 (refuted by the code): `mergeSort` is not stable.  On the
two-element vector `[(1, a), (1, b)]`, sorted by first components, the two
elements compare equal, the merge loop finds `comp(arr[i], arr[j])` false
and copies the element of the right run first, so the output is
`[(1, b), (1, a)]` — the relative order of the equal pair is reversed. -/
theorem mergeSort_unstable_on_equal_pair :
    dsa.sort.mergeSort (fun a b : Nat × Nat => decide (a.1 < b.1)) [(1, 0), (1, 1)]
      = [(1, 1), (1, 0)] := by
  simp [dsa.sort.mergeSort, dsa.sort.mergeSortFuel, dsa.sort.mergeRuns]

/-! ## Claims about the ordered tree container -/

/-- Claim C2: every tree reachable from the empty tree through the public
`insert`/`remove`/`clear` API satisfies the BST property (left-subtree
values strictly less, right-subtree values strictly greater than every
node's value), and consequently `isValid()` returns true on it. -/
theorem reachable_bst_valid {α : Type} [LinearOrder α] (t : dsa.Tree α)
    (h : dsa.BinarySearchTree.Reachable t) :
    dsa.BinarySearchTree.BSTProp t ∧ dsa.BinarySearchTree.isValid t = true := by
  have hb := dsa.BinarySearchTree.reachable_boundedP h
  exact ⟨dsa.BinarySearchTree.bstProp_of_boundedP t none none hb,
    (dsa.BinarySearchTree.isValidBST_eq_true_iff t none none).mpr hb⟩

/-- Witness for claim C2 at the reachable tree obtained by inserting 5. -/
theorem reachable_bst_valid_witness :
    dsa.BinarySearchTree.BSTProp (dsa.BinarySearchTree.insertTree dsa.Tree.leaf (5 : Int)) ∧
    dsa.BinarySearchTree.isValid (dsa.BinarySearchTree.insertTree dsa.Tree.leaf (5 : Int)) = true :=
  reachable_bst_valid _
    (dsa.BinarySearchTree.Reachable.insert _ 5 dsa.BinarySearchTree.Reachable.empty)

/-- Claim C4: on every tree reachable through the public API,
`inorderTraversal()` is strictly ascending under `<` (and in particular
non-decreasing). -/
theorem reachable_inorder_ascending {α : Type} [LinearOrder α] (t : dsa.Tree α)
    (h : dsa.BinarySearchTree.Reachable t) :
    (dsa.BinarySearchTree.inorderTraversal t).Pairwise (· < ·) ∧
    (dsa.BinarySearchTree.inorderTraversal t).Pairwise (· ≤ ·) := by
  have hp := dsa.BinarySearchTree.pairwise_inorder t none none
    (dsa.BinarySearchTree.reachable_boundedP h)
  exact ⟨hp, hp.imp le_of_lt⟩

/-- Witness for claim C4 at the reachable tree obtained by inserting 2 then
1. -/
theorem reachable_inorder_ascending_witness :
    (dsa.BinarySearchTree.inorderTraversal
        (dsa.BinarySearchTree.insertTree
          (dsa.BinarySearchTree.insertTree dsa.Tree.leaf (2 : Int)) 1)).Pairwise (· < ·) ∧
    (dsa.BinarySearchTree.inorderTraversal
        (dsa.BinarySearchTree.insertTree
          (dsa.BinarySearchTree.insertTree dsa.Tree.leaf (2 : Int)) 1)).Pairwise (· ≤ ·) :=
  reachable_inorder_ascending _
    (dsa.BinarySearchTree.Reachable.insert _ 1
      (dsa.BinarySearchTree.Reachable.insert _ 2 dsa.BinarySearchTree.Reachable.empty))

/-- Claim C7: on a public-API tree state (valid shape, counter equal to the
node count), inserting a present value and removing an absent value are
no-ops on both the tree and the counter, inserting an absent value
increments the counter by exactly one, and removing a present value
decrements it by exactly one. -/
theorem bst_insert_remove_noop_and_count {α : Type} [LinearOrder α]
    (t : dsa.Tree α) (v : α) (s : Nat)
    (h : dsa.BinarySearchTree.ReachableS (t, s)) :
    (dsa.BinarySearchTree.contains t v = true →
      dsa.BinarySearchTree.insert t v s = (t, s)) ∧
    (dsa.BinarySearchTree.contains t v = false →
      (dsa.BinarySearchTree.insert t v s).2 = s + 1) ∧
    (dsa.BinarySearchTree.contains t v = false →
      dsa.BinarySearchTree.remove t v s = (t, s)) ∧
    (dsa.BinarySearchTree.contains t v = true →
      (dsa.BinarySearchTree.remove t v s).2 + 1 = s) := by
  obtain ⟨hb', hs'⟩ := dsa.BinarySearchTree.reachableS_wf h
  have hb : dsa.BinarySearchTree.BoundedP (none : Option α) none t := hb'
  have hs : s = dsa.BinarySearchTree.countN t := hs'
  refine ⟨dsa.BinarySearchTree.insert_found t v s,
    dsa.BinarySearchTree.insert_not_found_snd t v s,
    dsa.BinarySearchTree.remove_not_found t v s, ?_⟩
  intro hc
  have h1 : (dsa.BinarySearchTree.remove t v s).2 = s - 1 :=
    dsa.BinarySearchTree.remove_found_snd t v none none s hb hc
  have h2 : 1 ≤ s := by
    rw [hs]
    cases t with
    | leaf => simp [dsa.BinarySearchTree.contains, dsa.BinarySearchTree.search] at hc
    | node x l r => simp [dsa.BinarySearchTree.countN]
  omega

/-- Witness for claim C7 at the one-node state `({5}, 1)`, exercising both
the present value 5 and the absent value 7. -/
theorem bst_insert_remove_noop_and_count_witness :
    dsa.BinarySearchTree.insert (dsa.Tree.node (5 : Int) .leaf .leaf) 5 1
      = (dsa.Tree.node 5 .leaf .leaf, 1) ∧
    (dsa.BinarySearchTree.remove (dsa.Tree.node (5 : Int) .leaf .leaf) 5 1).2 + 1 = 1 ∧
    (dsa.BinarySearchTree.insert (dsa.Tree.node (5 : Int) .leaf .leaf) 7 1).2 = 1 + 1 ∧
    dsa.BinarySearchTree.remove (dsa.Tree.node (5 : Int) .leaf .leaf) 7 1
      = (dsa.Tree.node 5 .leaf .leaf, 1) := by
  have hr : dsa.BinarySearchTree.ReachableS ((dsa.Tree.node (5 : Int) .leaf .leaf), 1) :=
    dsa.BinarySearchTree.ReachableS.insert (dsa.Tree.leaf, 0) 5
      dsa.BinarySearchTree.ReachableS.empty
  have h5 := bst_insert_remove_noop_and_count
    (dsa.Tree.node (5 : Int) .leaf .leaf) 5 1 hr
  have h7 := bst_insert_remove_noop_and_count
    (dsa.Tree.node (5 : Int) .leaf .leaf) 7 1 hr
  exact ⟨h5.1 (by decide), h5.2.2.2 (by decide), h7.2.1 (by decide), h7.2.2.1 (by decide)⟩

/-- Claim C9: `minimum()`/`maximum()` return an empty optional exactly when
the tree is empty (count 0); on a reachable non-empty tree they return the
smallest resp. largest stored value, which are the first resp. last
elements of `inorderTraversal()`. -/
theorem bst_minimum_maximum_spec {α : Type} [LinearOrder α] (t : dsa.Tree α)
    (h : dsa.BinarySearchTree.Reachable t) :
    (dsa.BinarySearchTree.minimum t = none ↔ dsa.BinarySearchTree.countN t = 0) ∧
    (dsa.BinarySearchTree.maximum t = none ↔ dsa.BinarySearchTree.countN t = 0) ∧
    dsa.BinarySearchTree.minimum t = (dsa.BinarySearchTree.inorderTraversal t).head? ∧
    dsa.BinarySearchTree.maximum t = (dsa.BinarySearchTree.inorderTraversal t).getLast? ∧
    (∀ m, dsa.BinarySearchTree.minimum t = some m →
      ∀ x ∈ dsa.BinarySearchTree.inorderTraversal t, m ≤ x) ∧
    (∀ m, dsa.BinarySearchTree.maximum t = some m →
      ∀ x ∈ dsa.BinarySearchTree.inorderTraversal t, x ≤ m) := by
  have hp := dsa.BinarySearchTree.pairwise_inorder t none none
    (dsa.BinarySearchTree.reachable_boundedP h)
  have h3 : dsa.BinarySearchTree.minimum t
      = (dsa.BinarySearchTree.inorderTraversal t).head? := by
    cases t with
    | leaf => rfl
    | node x l r =>
      exact (dsa.BinarySearchTree.inorder_head? x l r).symm
  have h4 : dsa.BinarySearchTree.maximum t
      = (dsa.BinarySearchTree.inorderTraversal t).getLast? := by
    cases t with
    | leaf => rfl
    | node x l r =>
      exact (dsa.BinarySearchTree.inorder_getLast? x l r).symm
  refine ⟨?_, ?_, h3, h4, ?_, ?_⟩
  · cases t <;> simp [dsa.BinarySearchTree.minimum, dsa.BinarySearchTree.countN]
  · cases t <;> simp [dsa.BinarySearchTree.maximum, dsa.BinarySearchTree.countN]
  · intro m hm
    exact dsa.BinarySearchTree.head_le_of_pairwise hp (h3.symm.trans hm)
  · intro m hm
    exact dsa.BinarySearchTree.le_getLast_of_pairwise hp (h4.symm.trans hm)

/-- Witness for claim C9 at the reachable tree obtained by inserting 5. -/
theorem bst_minimum_maximum_spec_witness :
    (dsa.BinarySearchTree.minimum (dsa.BinarySearchTree.insertTree dsa.Tree.leaf (5 : Int)) = none
        ↔ dsa.BinarySearchTree.countN (dsa.BinarySearchTree.insertTree dsa.Tree.leaf (5 : Int)) = 0) ∧
    (dsa.BinarySearchTree.maximum (dsa.BinarySearchTree.insertTree dsa.Tree.leaf (5 : Int)) = none
        ↔ dsa.BinarySearchTree.countN (dsa.BinarySearchTree.insertTree dsa.Tree.leaf (5 : Int)) = 0) ∧
    dsa.BinarySearchTree.minimum (dsa.BinarySearchTree.insertTree dsa.Tree.leaf (5 : Int))
        = (dsa.BinarySearchTree.inorderTraversal
            (dsa.BinarySearchTree.insertTree dsa.Tree.leaf (5 : Int))).head? ∧
    dsa.BinarySearchTree.maximum (dsa.BinarySearchTree.insertTree dsa.Tree.leaf (5 : Int))
        = (dsa.BinarySearchTree.inorderTraversal
            (dsa.BinarySearchTree.insertTree dsa.Tree.leaf (5 : Int))).getLast? ∧
    (∀ m, dsa.BinarySearchTree.minimum (dsa.BinarySearchTree.insertTree dsa.Tree.leaf (5 : Int)) = some m →
      ∀ x ∈ dsa.BinarySearchTree.inorderTraversal
          (dsa.BinarySearchTree.insertTree dsa.Tree.leaf (5 : Int)), m ≤ x) ∧
    (∀ m, dsa.BinarySearchTree.maximum (dsa.BinarySearchTree.insertTree dsa.Tree.leaf (5 : Int)) = some m →
      ∀ x ∈ dsa.BinarySearchTree.inorderTraversal
          (dsa.BinarySearchTree.insertTree dsa.Tree.leaf (5 : Int)), x ≤ m) :=
  bst_minimum_maximum_spec _
    (dsa.BinarySearchTree.Reachable.insert _ 5 dsa.BinarySearchTree.Reachable.empty)

/-- Claim C10: on every tree reachable through the public API,
`contains(v)` returns true exactly when `v` occurs in the inorder
traversal — the pruned search finds exactly the stored values. -/
theorem bst_contains_iff_inorder_mem {α : Type} [LinearOrder α] (t : dsa.Tree α)
    (h : dsa.BinarySearchTree.Reachable t) (v : α) :
    dsa.BinarySearchTree.contains t v = true ↔
      v ∈ dsa.BinarySearchTree.inorderTraversal t :=
  dsa.BinarySearchTree.search_eq_true_iff t v none none
    (dsa.BinarySearchTree.reachable_boundedP h)

/-- Witness for claim C10 at the reachable tree obtained by inserting 5,
querying the stored value 5. -/
theorem bst_contains_iff_inorder_mem_witness :
    dsa.BinarySearchTree.contains (dsa.BinarySearchTree.insertTree dsa.Tree.leaf (5 : Int)) 5 = true ↔
      (5 : Int) ∈ dsa.BinarySearchTree.inorderTraversal
        (dsa.BinarySearchTree.insertTree dsa.Tree.leaf (5 : Int)) :=
  bst_contains_iff_inorder_mem _
    (dsa.BinarySearchTree.Reachable.insert _ 5 dsa.BinarySearchTree.Reachable.empty) 5
